import Mathlib

/-
Verification of the `hardware/component.py` framework: a shallow embedding of
the FIFO-backed component protocol (`FIFOFile` / `Component`), the event
registry (`EventedInput`) and the polling mixin (`LoopedComponent`).

Modelling conventions, fixed once here:

* Bytes on the wire are modelled as `Char` values (`List Char` for byte
  strings).  The protocol is line-oriented UTF-8 text, and `bytes.decode()` /
  `str.encode()` become the identity on this representation; consequently a
  decode failure on non-UTF-8 input is not modelled (the parse failures the
  claims exercise come from `float()`, which is modelled).
* Python `float` values are modelled as exact rationals (`ℚ`).  Every value a
  Python float can hold is a dyadic rational, and every numeric literal the
  claims evaluate (`1`, `2.5`, `3`, `7`) is exactly representable as a double,
  so IEEE rounding never shows up at the inputs under consideration.
  `float(text)` is modelled by `pyFloat` (finite decimal literals with optional
  sign, point and exponent; the `inf`/`nan`/underscore/whitespace forms of the
  CPython grammar are not modelled) and `str` on a float by `pyStrFloat`
  (exact decimal expansion, which agrees with CPython's shortest-roundtrip
  `repr` on short decimal values such as `2.5`).
* Mutable objects become explicit state records; a Python method that both
  mutates `self` and returns/raises becomes a function returning the new state
  paired with an `Except` result.  Crucially, the state returned on the error
  path is the state at the moment the exception is raised (mutations performed
  before the raising expression are kept), matching CPython semantics.
* Python `dict` (insertion-ordered, unique keys) is modelled as an association
  list: update-in-place keeps the position of an existing key, a fresh key is
  appended, and `values()` is the list of second components.
* `os`-level FIFO node management is modelled against an abstract filesystem
  `Path → Option FSNode`; the `umask` dance around `mkfifo` has no observable
  effect in this model and is not represented.
-/

/-- Exception classes that the modelled code can raise. -/
inductive PyErr where
  | attributeError
  | valueError
  | indexError
  | runtimeError
  | typeError
  | keyError
  | fileNotFoundError
  | fileExistsError
deriving DecidableEq, Repr

/-- Equality on `Except` results is decidable componentwise; needed so that
concrete protocol runs can be checked by `decide`. -/
instance {ε α : Type} [DecidableEq ε] [DecidableEq α] : DecidableEq (Except ε α)
  | .error e, .error e' =>
    if h : e = e' then .isTrue (by rw [h]) else .isFalse (fun hh => by cases hh; exact h rfl)
  | .error _, .ok _ => .isFalse (fun hh => by cases hh)
  | .ok _, .error _ => .isFalse (fun hh => by cases hh)
  | .ok a, .ok a' =>
    if h : a = a' then .isTrue (by rw [h]) else .isFalse (fun hh => by cases hh; exact h rfl)

/-- A scalar as passed to `writedata`: a Python `int`, `float` or `str`. -/
inductive PyScalar where
  | int (n : ℤ)
  | float (q : ℚ)
  | str (s : List Char)
deriving DecidableEq, Repr

/-- An argument of `Component.writedata`: either a scalar or an iterable of
scalars.  Note that a Python `str` is itself iterable (over its one-character
substrings); that fact is captured by `pyHasIter` below, not by collapsing
strings into the `iter` constructor. -/
inductive PyData where
  | int (n : ℤ)
  | float (q : ℚ)
  | str (s : List Char)
  | iter (xs : List PyScalar)
deriving DecidableEq, Repr

/-- A value returned by `Component.readdata`: `float(text)` of a line without
commas, or the tuple of `float`s of a comma-separated line. -/
inductive PyValue where
  | float (q : ℚ)
  | tuple (qs : List ℚ)
deriving DecidableEq, Repr

/-- Numeric value of a list of decimal digit characters (most significant
first), as accumulated by a decimal parser. -/
def digitsToNat (ds : List Char) : ℕ :=
  ds.foldl (fun a c => 10 * a + (c.toNat - 48)) 0

/-- Powers of ten (`10 ** k`), written out so that every rational produced by
the model is built from kernel-reducible core arithmetic. -/
def pow10 : ℕ → ℕ
  | 0 => 1
  | n + 1 => 10 * pow10 n

/-- The rational denoted by a parsed decimal literal: sign, integer digits,
fraction digits and decimal exponent. -/
def decimalValue (neg : Bool) (ip fp : List Char) (e : ℤ) : ℚ :=
  let mant : ℤ := (digitsToNat ip : ℤ) * (pow10 fp.length : ℤ) + (digitsToNat fp : ℤ)
  let mant : ℤ := if neg then -mant else mant
  if 0 ≤ e then mkRat (mant * (pow10 e.toNat : ℤ)) (pow10 fp.length)
  else mkRat mant (pow10 fp.length * pow10 (-e).toNat)

/-- Modelled Python built-in `float(text)` restricted to finite decimal
literals: optional sign, integer digits, optional point with fractional
digits (at least one digit overall), optional exponent part.  Returns `none`
where CPython raises `ValueError`.  (`inf`/`nan`, underscores and surrounding
whitespace are outside the modelled grammar; no claim exercises them.) -/
def pyFloat (s : List Char) : Option ℚ :=
  let sgn : Bool × List Char :=
    match s with
    | '+' :: t => (false, t)
    | '-' :: t => (true, t)
    | t => (false, t)
  let ipSplit := sgn.2.span Char.isDigit
  let fpSplit : List Char × List Char :=
    match ipSplit.2 with
    | '.' :: t => t.span Char.isDigit
    | t => ([], t)
  let ip := ipSplit.1
  let fp := fpSplit.1
  let tail : List Char :=
    match ipSplit.2 with
    | '.' :: _ => fpSplit.2
    | t => t
  if ip = [] ∧ fp = [] then none
  else
    let ex : Option ℤ × List Char :=
      match tail with
      | 'e' :: t =>
        let esgn : Bool × List Char :=
          match t with
          | '+' :: u => (false, u)
          | '-' :: u => (true, u)
          | u => (false, u)
        let ed := esgn.2.span Char.isDigit
        if ed.1 = [] then (none, ed.2)
        else (some (if esgn.1 then -(digitsToNat ed.1 : ℤ) else (digitsToNat ed.1 : ℤ)), ed.2)
      | 'E' :: t =>
        let esgn : Bool × List Char :=
          match t with
          | '+' :: u => (false, u)
          | '-' :: u => (true, u)
          | u => (false, u)
        let ed := esgn.2.span Char.isDigit
        if ed.1 = [] then (none, ed.2)
        else (some (if esgn.1 then -(digitsToNat ed.1 : ℤ) else (digitsToNat ed.1 : ℤ)), ed.2)
      | t => (some 0, t)
    match ex.1 with
    | none => none
    | some e => if ex.2 = [] then some (decimalValue sgn.1 ip fp e) else none

/-- Decimal digits of the fraction `num / den` (with `0 ≤ num < den`),
stopping when the remainder reaches zero; the fuel bounds the number of
digits.  For a dyadic rational (the only values a Python float takes) a fuel
of `den` exhausts the expansion exactly. -/
def fracDigits : ℕ → ℤ → ℤ → List Char
  | 0, _, _ => []
  | n + 1, num, den =>
    if num = 0 then []
    else
      let d := num * 10 / den
      Char.ofNat (48 + d.toNat) :: fracDigits n (num * 10 - d * den) den

/-- Modelled Python `str` on a float: sign, integer part, decimal point, and
the exact fractional expansion (`"2.0"`-style when the value is integral),
agreeing with CPython's `repr` on all short decimal values. -/
def pyStrFloat (q : ℚ) : List Char :=
  let sgn : List Char := if q.num < 0 then ['-'] else []
  let an := q.num.natAbs
  let ds := fracDigits q.den ((an % q.den : ℕ) : ℤ) (q.den : ℤ)
  sgn ++ (toString (an / q.den)).toList ++ '.' :: (if ds = [] then ['0'] else ds)

/-- Python `str` applied to one scalar (`str` of a string is the string). -/
def pyStrScalar : PyScalar → List Char
  | .int n => (toString n).toList
  | .float q => pyStrFloat q
  | .str s => s

/-- The `hasattr(data, "__iter__")` test in `writedata`: true for iterables
and, importantly, for Python strings as well. -/
def pyHasIter : PyData → Bool
  | .str _ => true
  | .iter _ => true
  | _ => false

/-- Iterating a `writedata` argument: an iterable yields its elements, and a
string yields its characters as one-character strings. -/
def pyElems : PyData → List PyScalar
  | .str s => s.map (fun c => .str [c])
  | .iter xs => xs
  | _ => []

/-- Python `str` applied to a scalar `writedata` argument. -/
def pyStrData : PyData → List Char
  | .int n => (toString n).toList
  | .float q => pyStrFloat q
  | .str s => s
  | .iter _ => []

/-- Python `",".join` on a list of strings. -/
def joinComma : List (List Char) → List Char
  | [] => []
  | [x] => x
  | x :: xs => x ++ ',' :: joinComma xs

/-- Python `text.split(",")`: the (never empty) list of comma-separated
fields. -/
def splitComma : List Char → List (List Char)
  | [] => [[]]
  | c :: cs =>
    if c = ',' then [] :: splitComma cs
    else
      match splitComma cs with
      | [] => [[c]]
      | p :: ps => (c :: p) :: ps

/-- Bytes written by `Component.writedata(data)`: the `hasattr("__iter__")`
branch comma-joins `str(i)` over the iteration of `data`, otherwise the text
form `str(data)` is used; the encoded text plus exactly one `\n` byte goes to
the pipe. -/
def writedataBytes (d : PyData) : List Char :=
  (if pyHasIter d then joinComma ((pyElems d).map pyStrScalar) else pyStrData d) ++ ['\n']

/-- `buf.partition(b"\n")` restricted to the splitting case: `some (a, r)`
with `buf = a ++ '\n' :: r` and `a` newline-free when `buf` contains a
newline, `none` otherwise (in which case the code keeps the buffer whole). -/
def breakNL : List Char → Option (List Char × List Char)
  | [] => none
  | c :: cs =>
    if c = '\n' then some ([], cs)
    else (breakNL cs).map (fun p => (c :: p.1, p.2))

/-- The parse step of `readdata` on one complete line: `float(text)` if the
text has no comma, else the tuple of `float`s over `text.split(",")`;
`ValueError` (from `float`) on any malformed field. -/
def parseLine (line : List Char) : Except PyErr PyValue :=
  if ',' ∈ line then
    match (splitComma line).mapM pyFloat with
    | some qs => .ok (.tuple qs)
    | none => .error .valueError
  else
    match pyFloat line with
    | some q => .ok (.float q)
    | none => .error .valueError

/-- One call of `Component.readdata` on one channel, at the granularity of
that channel's state: `chunk` is what the non-blocking `read()` returned and
is appended to the partial-line buffer; if the buffer now holds a newline the
first line is split off (the buffer is advanced *before* the parse runs, so
the advanced buffer is returned even when the parse raises), else the call
returns `None`. -/
def readdata1 (buffer chunk : List Char) : List Char × Except PyErr (Option PyValue) :=
  let buf := buffer ++ chunk
  match breakNL buf with
  | none => (buf, .ok none)
  | some (a, r) => (r, (parseLine a).map some)

/-- Result entries contributed by one `readdata` call to the list of delivered
messages: `None` results are dropped, a parsed value or a raised parse error
is recorded. -/
def recordResult (r : Except PyErr (Option PyValue)) : List (Except PyErr PyValue) :=
  match r with
  | .ok none => []
  | .ok (some v) => [.ok v]
  | .error e => [.error e]

/-- Repeated `readdata` calls on one channel, one call per chunk (a `[]` chunk
is a call on which the pipe had no new data); returns the final partial-line
buffer and the recorded non-`None` outcomes in order. -/
def processChunks (buffer : List Char) : List (List Char) → List Char × List (Except PyErr PyValue)
  | [] => (buffer, [])
  | c :: cs =>
    let step := readdata1 buffer c
    let rest := processChunks step.1 cs
    (rest.1, recordResult step.2 ++ rest.2)

/-- The open file handle of one `FIFOFile`, as `Component` sees it: its open
flag and the bytes currently buffered in the pipe (written but not yet
read). -/
structure Pipe where
  isOpen : Bool
  content : List Char
deriving DecidableEq, Repr

/-- A freshly opened pipe (`FIFOFile.__init__` opens read-write and
non-blocking with nothing buffered). -/
def Pipe.new : Pipe := { isOpen := true, content := [] }

/-- The state of one `Component`: the configured channel range
`range(offset, numchannels + offset)`, the `__fifos` list (`none` until
`init()` has ever run, since the attribute does not exist before then),
the `__initialized` flag and the per-channel `__readdata` buffers
(a `defaultdict(bytes)`, modelled as a total function defaulting to `[]`).
The base name and filesystem side of `init` are modelled separately
(`componentPaths`, `fifoInit`). -/
structure Comp where
  channels : List ℕ
  fifos : Option (List Pipe)
  initialized : Bool
  buffers : ℕ → List Char

/-- `Component.__init__(numchannels, offset)`: no pipes, flag cleared, empty
buffers. -/
def Comp.new (numchannels offset : ℕ) : Comp :=
  { channels := List.range' offset numchannels
    fifos := none
    initialized := false
    buffers := fun _ => [] }

/-- `Component.init()`: fewer than two channels get a single `FIFOFile`,
otherwise one per channel index.  Note that it does *not* touch the
`initialized` flag. -/
def Comp.init (s : Comp) : Comp :=
  if s.channels.length < 2 then { s with fifos := some [Pipe.new] }
  else { s with fifos := some (s.channels.map fun _ => Pipe.new) }

/-- `Component._set_init()`. -/
def Comp.setInit (s : Comp) : Comp := { s with initialized := true }

/-- `Component._checkInit(quiet)`: quiet mode reports the flag, loud mode
raises `RuntimeError` when the flag is clear. -/
def Comp.checkInit (s : Comp) (quiet : Bool) : Except PyErr Bool :=
  if quiet then .ok s.initialized
  else if s.initialized then .ok true else .error .runtimeError

/-- `Component.cleanup()`: closes every pipe and clears the flag; before any
`init()` the `__fifos` attribute does not exist, so the access raises
`AttributeError`. -/
def Comp.cleanup (s : Comp) : Except PyErr Comp :=
  match s.fifos with
  | none => .error .attributeError
  | some fs =>
    .ok { s with fifos := some (fs.map fun p => { p with content := [], isOpen := false })
                 initialized := false }

/-- Whether every pipe of the component is open (`false` when `init` has
never created them). -/
def Comp.allOpen (s : Comp) : Bool :=
  match s.fifos with
  | none => false
  | some fs => fs.all Pipe.isOpen

/-- `Component.writedata(data, channel)`: serializes and appends to the
channel's pipe.  `self.__fifos` missing raises `AttributeError`, an
out-of-range list index raises `IndexError`, writing a closed file raises
`ValueError`; no initialization check is performed. -/
def Comp.writedata (s : Comp) (d : PyData) (channel : ℕ) : Except PyErr Comp :=
  match s.fifos with
  | none => .error .attributeError
  | some fs =>
    match fs.get? channel with
    | none => .error .indexError
    | some p =>
      if p.isOpen then
        .ok { s with fifos := some (fs.set channel { p with content := p.content ++ writedataBytes d }) }
      else .error .valueError

/-- `Component.readdata(channel)`: drains the channel's pipe into the
channel's buffer and applies the line-splitting step `readdata1`; other
channels' buffers are untouched.  As in `writedata`, no initialization check
is performed. -/
def Comp.readdata (s : Comp) (channel : ℕ) : Comp × Except PyErr (Option PyValue) :=
  match s.fifos with
  | none => (s, .error .attributeError)
  | some fs =>
    match fs.get? channel with
    | none => (s, .error .indexError)
    | some p =>
      if p.isOpen then
        let step := readdata1 (s.buffers channel) p.content
        ({ s with fifos := some (fs.set channel { p with content := [] })
                  buffers := fun k => if k = channel then step.1 else s.buffers k },
         step.2)
      else (s, .error .valueError)

/-- The state of a `LoopedComponent` mixed into a `Component`: the base
component state plus the `__started` flag.  The background thread itself is
modelled by `loopTicks` below; `tick` is subclass-supplied and does not touch
the run state. -/
structure LoopedComp where
  comp : Comp
  started : Bool

/-- Construction: the daemon thread is started immediately, the `started`
flag begins false. -/
def LoopedComp.new (numchannels offset : ℕ) : LoopedComp :=
  { comp := Comp.new numchannels offset, started := false }

/-- `LoopedComponent.start()`: `self._checkInit()` first (loud), then sets
the flag. -/
def LoopedComp.start (s : LoopedComp) : Except PyErr LoopedComp :=
  match s.comp.checkInit false with
  | .error e => .error e
  | .ok _ => .ok { s with started := true }

/-- `LoopedComponent.stop()`: clears the flag unconditionally. -/
def LoopedComp.stop (s : LoopedComp) : LoopedComp := { s with started := false }

/-- `LoopedComponent.init(autostart)`: base `init`, then `_set_init`, then
optionally `start`. -/
def LoopedComp.init (s : LoopedComp) (autostart : Bool) : Except PyErr LoopedComp :=
  let s1 : LoopedComp := { s with comp := s.comp.init.setInit }
  if autostart then s1.start else .ok s1

/-- `LoopedComponent.cleanup()`: calls `stop()` first when currently started,
then the base cleanup.  The returned boolean records whether `stop()` was
invoked. -/
def LoopedComp.cleanup (s : LoopedComp) : Bool × Except PyErr LoopedComp :=
  let s1 := if s.started then s.stop else s
  (s.started, (Except.map (fun c => { s1 with comp := c }) s1.comp.cleanup))

/-- `n` iterations of the `runloop` body, counting `tick()` invocations: each
iteration invokes `tick` exactly when `started` is set at that iteration.
The loop itself never changes the run state, so the flag is constant across
the modelled iterations. -/
def LoopedComp.loopTicks (s : LoopedComp) : ℕ → ℕ
  | 0 => 0
  | n + 1 => (if s.started then 1 else 0) + s.loopTicks n

/-- A key of the `EventedInput.__handlers` mapping: the `"generic"` sentinel
or a specific pin number. -/
inductive HKey where
  | generic
  | pin (p : ℕ)
deriving DecidableEq, Repr

/-- Python `dict` lookup on the association-list model (keys are unique, so
the first match is the only one). -/
def dictGet {K V : Type} [DecidableEq K] : List (K × V) → K → Option V
  | [], _ => none
  | (k', v) :: rest, k => if k' = k then some v else dictGet rest k

/-- Python `d[k] = v`: update in place if the key exists (keeping its
insertion position), append otherwise. -/
def dictSet {K V : Type} [DecidableEq K] : List (K × V) → K → V → List (K × V)
  | [], k, v => [(k, v)]
  | (k', v') :: rest, k, v =>
    if k' = k then (k, v) :: rest else (k', v') :: dictSet rest k v

/-- Python `del d[k]` on the state: removes the entry; on a missing key the
state is unchanged (the raised `KeyError` is modelled at the operation
level). -/
def dictDel {K V : Type} [DecidableEq K] : List (K × V) → K → List (K × V)
  | [], _ => []
  | (k', v') :: rest, k =>
    if k' = k then rest else (k', v') :: dictDel rest k

/-- The state of an `EventedInput` registry: the id counter (`-1` at
construction) and the `defaultdict(dict)` from handler key to the
insertion-ordered id-to-callback dict.  `H` is the type of callbacks. -/
structure EIState (H : Type) where
  nextId : ℤ
  handlers : List (HKey × List (ℤ × H))

/-- `EventedInput.__init__`. -/
def EIState.new (H : Type) : EIState H := { nextId := -1, handlers := [] }

/-- The key selected by `_get_handlers(pin, generic)`: the generic bucket if
`generic` is set, else the bucket of `pin`; omitting `pin` without `generic`
raises `TypeError`. -/
def getHandlersKey (pin : Option ℕ) (generic : Bool) : Except PyErr HKey :=
  if generic then .ok .generic
  else
    match pin with
    | some p => .ok (.pin p)
    | none => .error .typeError

/-- The bucket stored under one key (a `defaultdict(dict)` read: missing keys
behave as the empty dict). -/
def EIState.bucket {H : Type} (st : EIState H) (k : HKey) : List (ℤ × H) :=
  (dictGet st.handlers k).getD []

/-- One registry call.  `add` is `add_handler`: the counter is incremented
*before* `_get_handlers` runs, so even a `TypeError`-raising call consumes an
id; on success the fresh id maps to the callback and is returned.  `remove`
is `remove_handler`: `del` on the bucket, which leaves the state unchanged
when the id is missing (the `KeyError` is raised after no mutation). -/
inductive EIOp (H : Type) where
  | add (cb : H) (pin : Option ℕ) (generic : Bool)
  | remove (hid : ℤ) (pin : Option ℕ) (generic : Bool)

/-- Whether a call respects the registry's contract (supplies a pin or asks
for the generic bucket); the complement is exactly the `TypeError` usage
fault. -/
def EIOp.wellFormed {H : Type} : EIOp H → Bool
  | .add _ pin generic => generic || pin.isSome
  | .remove _ _ _ => true

/-- Execute one call: the resulting state and the issued id, if any. -/
def runOp {H : Type} (st : EIState H) : EIOp H → EIState H × Option ℤ
  | .add cb pin generic =>
    let n := st.nextId + 1
    match getHandlersKey pin generic with
    | .error _ => ({ st with nextId := n }, none)
    | .ok key =>
      ({ nextId := n, handlers := dictSet st.handlers key (dictSet (st.bucket key) n cb) },
       some n)
  | .remove hid pin generic =>
    match getHandlersKey pin generic with
    | .error _ => (st, none)
    | .ok key =>
      ({ st with handlers := dictSet st.handlers key (dictDel (st.bucket key) hid) }, none)

/-- Execute a call sequence from a state, collecting the issued ids in
order. -/
def runOps {H : Type} (st : EIState H) : List (EIOp H) → EIState H × List ℤ
  | [] => (st, [])
  | op :: ops =>
    let step := runOp st op
    let rest := runOps step.1 ops
    (rest.1, step.2.toList ++ rest.2)

/-- The dispatch loop of `_handle_pin` over a list of (id, callback) entries:
each entry's callback is invoked inside `try/except Exception`, so a raising
callback (`run` returning `.error`) is logged and the loop continues with the
next entry; the trace records every invocation and its outcome. -/
def dispatch {H : Type} (run : H → ℕ → Except PyErr Unit) (pin : ℕ) :
    List (ℤ × H) → List (ℤ × Except PyErr Unit)
  | [] => []
  | (hid, h) :: rest => (hid, run h pin) :: dispatch run pin rest

/-- `EventedInput._handle_pin(pin)`: iterates the generic bucket's values
followed by the pin's bucket's values, dispatching each. -/
def handlePin {H : Type} (run : H → ℕ → Except PyErr Unit) (st : EIState H) (pin : ℕ) :
    List (ℤ × Except PyErr Unit) :=
  dispatch run pin (st.bucket .generic ++ st.bucket (.pin pin))

/-- Kinds of filesystem node relevant to pipe management. -/
inductive FSNode where
  | fifo
  | regular
deriving DecidableEq, Repr

/-- An abstract filesystem: which node, if any, sits at each path. -/
def FS : Type := List Char → Option FSNode

/-- `os.unlink`: removes the node, raising `FileNotFoundError` when
absent. -/
def osUnlink (fs : FS) (p : List Char) : Except PyErr FS :=
  match fs p with
  | none => .error .fileNotFoundError
  | some _ => .ok (fun q => if q = p then none else fs q)

/-- `try: os.unlink(path) except FileNotFoundError: pass` — the guarded
removal used by both `FIFOFile.__init__` and `FIFOFile.close`. -/
def unlinkTolerant (fs : FS) (p : List Char) : FS :=
  match osUnlink fs p with
  | .ok fs' => fs'
  | .error _ => fs

/-- `os.mkfifo`: creates the node, raising `FileExistsError` when the path is
occupied. -/
def osMkfifo (fs : FS) (p : List Char) : Except PyErr FS :=
  match fs p with
  | some _ => .error .fileExistsError
  | none => .ok (fun q => if q = p then some .fifo else fs q)

/-- The filesystem side of one `FIFOFile`: the filesystem as this object left
it and whether its handle is open. -/
structure FIFOSt where
  fs : FS
  fdOpen : Bool

/-- `FIFOFile.__init__` at path `p`: tolerant unlink of any stale node, then
`mkfifo`, then open. -/
def fifoInit (fs : FS) (p : List Char) : Except PyErr FIFOSt :=
  Except.map (fun fs' => { fs := fs', fdOpen := true }) (osMkfifo (unlinkTolerant fs p) p)

/-- `FIFOFile.close()`: close the handle, then tolerant unlink of the
node. -/
def fifoClose (st : FIFOSt) (p : List Char) : FIFOSt :=
  { fs := unlinkTolerant st.fs p, fdOpen := false }

/-- The path of one `FIFOFile(fn, num)`: `os.path.join(BASE_DIR, fn + str(num))`
with `base` the base directory (ending in a separator, so the join is
concatenation) — note the suffix `str(num)` is always appended, and `num`
defaults to `0`. -/
def fifoFilename (base fn : List Char) (num : ℕ) : List Char :=
  base ++ fn ++ (toString num).toList

/-- The pipe paths `Component.init()` creates: fewer than two channels means
a single `FIFOFile(fn)` — whose default `num=0` still appends `"0"` — and
otherwise one `FIFOFile(fn, i)` per `i` in `range(offset, numchannels +
offset)`. -/
def componentPaths (base fn : List Char) (numchannels offset : ℕ) : List (List Char) :=
  let channels := List.range' offset numchannels
  if channels.length < 2 then [fifoFilename base fn 0]
  else channels.map (fifoFilename base fn)

/-- All complete lines of a buffer, in order, with the trailing newline-free
remainder, with an explicit fuel bounding the number of splits. -/
def extractLinesF : ℕ → List Char → List (List Char) × List Char
  | 0, l => ([], l)
  | fuel + 1, l =>
    match breakNL l with
    | none => ([], l)
    | some (a, r) =>
      let p := extractLinesF fuel r
      (a :: p.1, p.2)

/-- All complete lines of a buffer with the trailing newline-free remainder:
the reference splitting that `readdata` implements one line per call (the
buffer length bounds the number of complete lines). -/
def extractLines (l : List Char) : List (List Char) × List Char :=
  extractLinesF l.length l

/-- The buffer contains no newline exactly when `partition` finds nothing to
split. -/
theorem breakNL_eq_none {l : List Char} : breakNL l = none ↔ ('\n') ∉ l := by
  induction l with
  | nil => simp [breakNL]
  | cons c cs ih =>
    by_cases hc : c = '\n'
    · subst hc
      simp [breakNL]
    · rw [breakNL, if_neg hc, Option.map_eq_none', ih]
      simp [List.mem_cons, eq_comm, hc]

/-- Soundness of the split: the buffer is the newline-free head, the newline,
and the tail. -/
theorem breakNL_sound {l a r : List Char} (h : breakNL l = some (a, r)) :
    l = a ++ '\n' :: r ∧ ('\n') ∉ a := by
  induction l generalizing a r with
  | nil => simp [breakNL] at h
  | cons c cs ih =>
    by_cases hc : c = '\n'
    · subst hc
      rw [breakNL, if_pos rfl] at h
      cases h
      simp
    · rw [breakNL, if_neg hc, Option.map_eq_some'] at h
      obtain ⟨p, hp, he⟩ := h
      cases he
      obtain ⟨h1, h2⟩ := ih hp
      constructor
      · rw [h1]; rfl
      · simp [List.mem_cons, eq_comm, hc, h2]

/-- Splitting is determined by everything up to the first newline: appending
more bytes after a splittable buffer only extends the tail. -/
theorem breakNL_append_some {x a r : List Char} (h : breakNL x = some (a, r)) (y : List Char) :
    breakNL (x ++ y) = some (a, r ++ y) := by
  induction x generalizing a r with
  | nil => simp [breakNL] at h
  | cons c cs ih =>
    by_cases hc : c = '\n'
    · subst hc
      rw [breakNL, if_pos rfl] at h
      cases h
      simp [breakNL]
    · rw [breakNL, if_neg hc, Option.map_eq_some'] at h
      obtain ⟨p, hp, he⟩ := h
      cases he
      rw [List.cons_append, breakNL, if_neg hc, ih hp]
      rfl

/-- A newline-free prefix only shifts the split of what follows. -/
theorem breakNL_append_none {x : List Char} (h : breakNL x = none) (y : List Char) :
    breakNL (x ++ y) = (breakNL y).map (fun p => (x ++ p.1, p.2)) := by
  induction x with
  | nil => cases hy : breakNL y <;> simp [hy]
  | cons c cs ih =>
    by_cases hc : c = '\n'
    · subst hc
      rw [breakNL, if_pos rfl] at h
      cases h
    · rw [breakNL, if_neg hc, Option.map_eq_none'] at h
      rw [List.cons_append, breakNL, if_neg hc, ih h]
      cases hy : breakNL y <;> simp

/-- Unfolding `extractLinesF` on a newline-free buffer: no fuel is needed
beyond zero. -/
theorem extractLinesF_of_none {l : List Char} (h : breakNL l = none) (fuel : ℕ) :
    extractLinesF fuel l = ([], l) := by
  cases fuel with
  | zero => rfl
  | succ n => simp [extractLinesF, h]

/-- The fuel is irrelevant once it covers the buffer length. -/
theorem extractLinesF_eq (f1 : ℕ) : ∀ (l : List Char) (f2 : ℕ),
    l.length ≤ f1 → l.length ≤ f2 → extractLinesF f1 l = extractLinesF f2 l := by
  induction f1 with
  | zero =>
    intro l f2 h1 _
    have hl : l = [] := List.length_eq_zero.mp (Nat.le_zero.mp h1)
    subst hl
    rw [extractLinesF_of_none (by simp [breakNL]) f2]
    rfl
  | succ n ih =>
    intro l f2 h1 h2
    cases h : breakNL l with
    | none => rw [extractLinesF_of_none h, extractLinesF_of_none h]
    | some p =>
      obtain ⟨a, r⟩ := p
      obtain ⟨he, hna⟩ := breakNL_sound h
      have hr : r.length < l.length := by
        rw [he]
        simp [List.length_append]
        omega
      obtain ⟨m, hm⟩ : ∃ m, f2 = m + 1 := ⟨f2 - 1, by omega⟩
      subst hm
      simp only [extractLinesF, h]
      rw [ih r m (by omega) (by omega)]

/-- Unfolding `extractLines` on a newline-free buffer. -/
theorem extractLines_of_none {l : List Char} (h : breakNL l = none) :
    extractLines l = ([], l) :=
  extractLinesF_of_none h l.length

/-- Unfolding `extractLines` on a splittable buffer. -/
theorem extractLines_of_some {l a r : List Char} (h : breakNL l = some (a, r)) :
    extractLines l = (a :: (extractLines r).1, (extractLines r).2) := by
  obtain ⟨he, hna⟩ := breakNL_sound h
  have hr : r.length < l.length := by
    rw [he]
    simp [List.length_append]
    omega
  obtain ⟨m, hm⟩ : ∃ m, l.length = m + 1 := ⟨l.length - 1, by omega⟩
  show extractLinesF l.length l = _
  rw [hm]
  simp only [extractLinesF, h]
  rw [extractLinesF_eq m r r.length (by omega) (le_refl r.length)]
  rfl

/-- The stream of `k` newline-terminated messages splits back into exactly
those messages with nothing left over. -/
theorem extractLines_msgs (msgs : List (List Char)) (hm : ∀ m ∈ msgs, ('\n') ∉ m) :
    extractLines (msgs.map (fun m => m ++ ['\n'])).flatten = (msgs, []) := by
  induction msgs with
  | nil => exact extractLines_of_none (by simp [breakNL])
  | cons m ms ih =>
    have hmm : ('\n') ∉ m := hm m (by simp)
    have h1 : breakNL (m ++ '\n' :: (ms.map (fun m => m ++ ['\n'])).flatten)
        = some (m, (ms.map (fun m => m ++ ['\n'])).flatten) := by
      rw [breakNL_append_none (breakNL_eq_none.mpr hmm)]
      simp [breakNL]
    have h2 := extractLines_of_some h1
    have h3 : (List.map (fun m => m ++ ['\n']) (m :: ms)).flatten
        = m ++ '\n' :: (ms.map (fun m => m ++ ['\n'])).flatten := by
      simp
    rw [h3, h2, ih (fun x hx => hm x (by simp [hx]))]

/-- Each newline-terminated message contributes exactly one newline to the
stream. -/
theorem count_nl_msgs (msgs : List (List Char)) (hm : ∀ m ∈ msgs, ('\n') ∉ m) :
    ((msgs.map (fun m => m ++ ['\n'])).flatten).count '\n' = msgs.length := by
  induction msgs with
  | nil => simp
  | cons m ms ih =>
    have hmm : ('\n') ∉ m := hm m (by simp)
    have h3 : (List.map (fun m => m ++ ['\n']) (m :: ms)).flatten
        = m ++ '\n' :: (ms.map (fun m => m ++ ['\n'])).flatten := by
      simp
    rw [h3, List.count_append, List.count_cons_self,
      List.count_eq_zero.mpr hmm, ih (fun x hx => hm x (by simp [hx]))]
    simp

/-- A readdata call on a line ending in a parse error still records that
error (the `Except.map some` collapses back). -/
theorem recordResult_map_some (r : Except PyErr PyValue) :
    recordResult (Except.map some r) = [r] := by
  cases r <;> rfl

/-- Draining calls: once the pipe is silent, `count` many further `readdata`
calls deliver every complete line still buffered, one per call, leaving the
newline-free remainder buffered. -/
theorem processChunks_drain (k : ℕ) :
    ∀ buffer : List Char, buffer.count '\n' ≤ k →
    processChunks buffer (List.replicate k []) =
      ((extractLines buffer).2, (extractLines buffer).1.map parseLine) := by
  induction k with
  | zero =>
    intro buffer hb
    have h0 : ('\n') ∉ buffer := List.count_eq_zero.mp (Nat.le_zero.mp hb)
    rw [extractLines_of_none (breakNL_eq_none.mpr h0)]
    rfl
  | succ k ih =>
    intro buffer hb
    rw [List.replicate_succ]
    show (processChunks buffer ([] :: List.replicate k [])) = _
    rw [processChunks]
    cases h : breakNL buffer with
    | none =>
      have h0 : ('\n') ∉ buffer := breakNL_eq_none.mp h
      rw [extractLines_of_none h]
      have hstep : readdata1 buffer [] = (buffer, .ok none) := by
        rw [readdata1]
        simp [h]
      rw [hstep]
      have := ih buffer (by
        have h0c : buffer.count '\n' = 0 := List.count_eq_zero.mpr h0
        omega)
      rw [extractLines_of_none h] at this
      simp [recordResult, this]
    | some p =>
      obtain ⟨a, r⟩ := p
      obtain ⟨hl, hna⟩ := breakNL_sound h
      have hstep : readdata1 buffer [] = (r, Except.map some (parseLine a)) := by
        rw [readdata1]
        simp [h]
      rw [hstep]
      have hcount : r.count '\n' ≤ k := by
        have : buffer.count '\n' = a.count '\n' + (1 + r.count '\n') := by
          rw [hl, List.count_append, List.count_cons_self]
          omega
        rw [List.count_eq_zero.mpr hna] at this
        omega
      have := ih r hcount
      rw [extractLines_of_some h]
      simp [this, recordResult_map_some]

/-- The main framing lemma: delivering the stream in any chunking, one
`readdata` call per chunk, followed by enough data-less calls, records the
parses of all complete lines of the stream in order and leaves exactly the
trailing newline-free remainder buffered. -/
theorem processChunks_spec (chunks : List (List Char)) :
    ∀ (buffer : List Char) (k : ℕ), (buffer ++ chunks.flatten).count '\n' ≤ k →
    processChunks buffer (chunks ++ List.replicate k []) =
      ((extractLines (buffer ++ chunks.flatten)).2,
       (extractLines (buffer ++ chunks.flatten)).1.map parseLine) := by
  induction chunks with
  | nil =>
    intro buffer k hb
    simp only [List.flatten_nil, List.append_nil] at hb ⊢
    exact processChunks_drain k buffer hb
  | cons c cs ih =>
    intro buffer k hb
    rw [List.cons_append, processChunks]
    cases h : breakNL (buffer ++ c) with
    | none =>
      have hstep : readdata1 buffer c = (buffer ++ c, .ok none) := by
        rw [readdata1]
        simp [h]
      rw [hstep]
      have hassoc : (buffer ++ c) ++ cs.flatten = buffer ++ (c :: cs).flatten := by
        simp
      have := ih (buffer ++ c) k (by rw [hassoc]; exact hb)
      rw [hassoc] at this
      simp [recordResult, this]
    | some p =>
      obtain ⟨a, r⟩ := p
      obtain ⟨hl, hna⟩ := breakNL_sound h
      have hstep : readdata1 buffer c = (r, Except.map some (parseLine a)) := by
        rw [readdata1]
        simp [h]
      rw [hstep]
      have hlall : buffer ++ (c :: cs).flatten = a ++ '\n' :: (r ++ cs.flatten) := by
        calc buffer ++ (c :: cs).flatten = (buffer ++ c) ++ cs.flatten := by simp
        _ = (a ++ '\n' :: r) ++ cs.flatten := by rw [hl]
        _ = a ++ '\n' :: (r ++ cs.flatten) := by simp
      have hcount : (r ++ cs.flatten).count '\n' ≤ k := by
        have hc1 : (buffer ++ (c :: cs).flatten).count '\n'
            = a.count '\n' + (1 + (r ++ cs.flatten).count '\n') := by
          rw [hlall, List.count_append, List.count_cons_self]
          omega
        rw [List.count_eq_zero.mpr hna] at hc1
        omega
      have hbrk : breakNL (buffer ++ (c :: cs).flatten) = some (a, r ++ cs.flatten) := by
        have := breakNL_append_some h cs.flatten
        calc breakNL (buffer ++ (c :: cs).flatten)
            = breakNL ((buffer ++ c) ++ cs.flatten) := by simp
        _ = some (a, r ++ cs.flatten) := this
      have := ih r k hcount
      rw [extractLines_of_some hbrk]
      simp [this, recordResult_map_some]

/-- The dispatch loop is a map over the entries: every entry is invoked
exactly once, in order, whatever the callbacks' outcomes. -/
theorem dispatch_eq_map {H : Type} (run : H → ℕ → Except PyErr Unit) (pin : ℕ)
    (l : List (ℤ × H)) : dispatch run pin l = l.map (fun e => (e.1, run e.2 pin)) := by
  induction l with
  | nil => rfl
  | cons e rest ih =>
    obtain ⟨hid, h⟩ := e
    rw [dispatch, ih]
    rfl

/-- The counter after an `add_handler` call: incremented whether or not the
call raised `TypeError` (the increment happens before `_get_handlers`). -/
theorem runOp_add_nextId {H : Type} (st : EIState H) (cb : H) (pin : Option ℕ) (g : Bool) :
    (runOp st (.add cb pin g)).1.nextId = st.nextId + 1 := by
  rw [runOp]
  cases h : getHandlersKey pin g <;> simp

/-- The id issued by an `add_handler` call, when one is issued, is the fresh
counter value. -/
theorem runOp_add_issued {H : Type} (st : EIState H) (cb : H) (pin : Option ℕ) (g : Bool)
    (i : ℤ) (h : (runOp st (.add cb pin g)).2 = some i) : i = st.nextId + 1 := by
  rw [runOp] at h
  cases hk : getHandlersKey pin g <;> rw [hk] at h <;> simp at h
  omega

/-- A contract-respecting `add_handler` call always issues the fresh id. -/
theorem runOp_add_issued_wf {H : Type} (st : EIState H) (cb : H) (pin : Option ℕ) (g : Bool)
    (hwf : (EIOp.add cb pin g).wellFormed = true) :
    (runOp st (.add cb pin g)).2 = some (st.nextId + 1) := by
  rw [EIOp.wellFormed] at hwf
  rw [runOp]
  cases g with
  | true => rfl
  | false =>
    cases pin with
    | none => simp at hwf
    | some p => rfl

/-- A `remove_handler` call never touches the counter and never issues. -/
theorem runOp_remove {H : Type} (st : EIState H) (hid : ℤ) (pin : Option ℕ) (g : Bool) :
    (runOp st (.remove hid pin g)).1.nextId = st.nextId
    ∧ (runOp st (.remove hid pin g)).2 = none := by
  rw [runOp]
  cases h : getHandlersKey pin g <;> simp

/-- One `runOp` step: the counter never decreases, and an issued id is the
value of the counter after the step, strictly above the counter before. -/
theorem runOp_step {H : Type} (st : EIState H) (op : EIOp H) :
    st.nextId ≤ (runOp st op).1.nextId
    ∧ (∀ i : ℤ, (runOp st op).2 = some i → i = (runOp st op).1.nextId ∧ st.nextId < i) := by
  cases op with
  | add cb pin g =>
    rw [runOp_add_nextId]
    refine ⟨by omega, ?_⟩
    intro i hi
    have := runOp_add_issued st cb pin g i hi
    omega
  | remove hid pin g =>
    obtain ⟨h1, h2⟩ := runOp_remove st hid pin g
    rw [h1, h2]
    exact ⟨le_refl _, by simp⟩

/-- Unfolding one step of `runOps`. -/
theorem runOps_cons {H : Type} (st : EIState H) (op : EIOp H) (ops : List (EIOp H)) :
    runOps st (op :: ops)
      = ((runOps (runOp st op).1 ops).1,
         (runOp st op).2.toList ++ (runOps (runOp st op).1 ops).2) := rfl

/-- Along any call sequence: the counter is monotone, every issued id is
strictly above the starting counter, and the issued ids strictly increase. -/
theorem runOps_issued {H : Type} (ops : List (EIOp H)) :
    ∀ st : EIState H,
      st.nextId ≤ (runOps st ops).1.nextId
      ∧ (∀ i ∈ (runOps st ops).2, st.nextId < i)
      ∧ ((runOps st ops).2).Pairwise (· < ·) := by
  induction ops with
  | nil =>
    intro st
    refine ⟨le_refl _, ?_, ?_⟩ <;> simp [runOps]
  | cons op ops ih =>
    intro st
    obtain ⟨hmono, hfresh⟩ := runOp_step st op
    obtain ⟨ihmono, ihelem, ihpw⟩ := ih (runOp st op).1
    rw [runOps_cons]
    refine ⟨le_trans hmono ihmono, ?_, ?_⟩
    · intro i hi
      rcases List.mem_append.mp hi with hi | hi
      · cases hio : (runOp st op).2 with
        | none => rw [hio] at hi; simp at hi
        | some n =>
          rw [hio] at hi
          simp at hi
          subst hi
          exact (hfresh i hio).2
      · exact lt_of_le_of_lt hmono (ihelem i hi)
    · cases hio : (runOp st op).2 with
      | none => simpa using ihpw
      | some n =>
        simp only [Option.toList_some, List.singleton_append, List.pairwise_cons]
        refine ⟨?_, ihpw⟩
        intro i hi
        have h1 := ihelem i hi
        have h2 := (hfresh n hio).1
        omega

/-- The number of `add_handler` calls in a call sequence. -/
def countAdds {H : Type} : List (EIOp H) → ℕ
  | [] => 0
  | .add _ _ _ :: ops => countAdds ops + 1
  | .remove _ _ _ :: ops => countAdds ops

/-- On contract-respecting call sequences every `add` issues, and the issued
ids are exactly the consecutive integers following the starting counter. -/
theorem runOps_issued_wf {H : Type} (ops : List (EIOp H))
    (hwf : ∀ op ∈ ops, op.wellFormed = true) :
    ∀ st : EIState H,
      (runOps st ops).2
        = (List.range (countAdds ops)).map (fun i : ℕ => st.nextId + 1 + (i : ℤ)) := by
  induction ops with
  | nil => intro st; simp [runOps, countAdds]
  | cons op ops ih =>
    intro st
    have hwfrest : ∀ o ∈ ops, EIOp.wellFormed o = true :=
      fun o ho => hwf o (by simp [ho])
    rw [runOps_cons]
    cases op with
    | add cb pin g =>
      rw [runOp_add_issued_wf st cb pin g (hwf _ (by simp)),
        ih hwfrest (runOp st (.add cb pin g)).1, runOp_add_nextId,
        countAdds, List.range_succ_eq_map]
      simp only [Option.toList_some, List.singleton_append, List.map_cons, List.map_map]
      congr 1
      · simp
      · apply List.map_congr_left
        intro i _
        simp [Function.comp]
        omega
    | remove hid pin g =>
      obtain ⟨h1, h2⟩ := runOp_remove st hid pin g
      rw [h2, ih hwfrest (runOp st (.remove hid pin g)).1, h1, countAdds]
      simp

/-- Claim C1: for every byte stream containing `k` newline-terminated
messages, delivered to `readdata` across repeated calls with arbitrary chunk
boundaries (plus `k` further calls with no new data, since each call delivers
at most one line), exactly `k` non-`None` results are produced, each the
parse of one message, in message order, with partial lines buffered and never
lost, duplicated or redelivered (the final buffer is empty and the recorded
outcomes are exactly the message parses); and `readdata` returns `None`
whenever the buffer holds no complete line, even on repeated calls with no
new data (the buffer is returned unchanged, so every further data-less call
returns `None` again). -/
theorem readdata_framing :
    (∀ msgs chunks : List (List Char),
      (∀ m ∈ msgs, ('\n') ∉ m) →
      chunks.flatten = (msgs.map (fun m => m ++ ['\n'])).flatten →
      processChunks [] (chunks ++ List.replicate msgs.length [])
        = ([], msgs.map parseLine))
    ∧ (∀ buffer : List Char, ('\n') ∉ buffer →
        readdata1 buffer [] = (buffer, .ok none)) := by
  constructor
  · intro msgs chunks hm hc
    have hcount : (([] : List Char) ++ chunks.flatten).count '\n' = msgs.length := by
      rw [List.nil_append, hc]
      exact count_nl_msgs msgs hm
    have h := processChunks_spec chunks [] msgs.length (le_of_eq hcount)
    rw [List.nil_append, hc, extractLines_msgs msgs hm] at h
    exact h
  · intro buffer hb
    rw [readdata1]
    simp [breakNL_eq_none.mpr hb]

/-- Concrete run of claim C1: the stream `"1\n2\n"` delivered in the chunks
`"1"` and `"\n2\n"` yields exactly the two parses, in order, with an empty
final buffer; a buffered partial line is returned untouched by a data-less
call. -/
theorem readdata_framing_witness :
    (processChunks [] ([['1'], ['\n', '2', '\n']] ++ List.replicate 2 [])
      = ([], [parseLine ['1'], parseLine ['2']])
      ∧ [parseLine ['1'], parseLine ['2']]
        = [.ok (.float 1), .ok (.float 2)])
    ∧ readdata1 ['a'] [] = (['a'], .ok none) := by
  refine ⟨⟨?_, by decide⟩, readdata_framing.2 ['a'] (by decide)⟩
  exact readdata_framing.1 [['1'], ['2']] [['1'], ['\n', '2', '\n']] (by decide) (by decide)

/-- Claim C10: `readdata` is not atomic on malformed input — when a complete
line is buffered whose text does not parse (here: any line on which the
modelled `float` parse raises `ValueError`), the call raises, but the
returned channel state shows the buffer already advanced past the newline:
the malformed line has been split off and lost. -/
theorem readdata_malformed_line (line rest : List Char)
    (h1 : ('\n') ∉ line) (h2 : parseLine line = .error .valueError) :
    readdata1 [] (line ++ '\n' :: rest) = (rest, .error .valueError) := by
  have hb : breakNL (line ++ '\n' :: rest) = some (line, rest) := by
    rw [breakNL_append_none (breakNL_eq_none.mpr h1)]
    simp [breakNL]
  rw [readdata1, List.nil_append, hb]
  simp [h2, Except.map]

/-- Concrete run of claim C10: the buffer `"x\nr"` raises `ValueError` while
the returned buffer has already advanced to `"r"` — the line `"x"` is
gone. -/
theorem readdata_malformed_line_witness :
    readdata1 [] (['x'] ++ '\n' :: ['r']) = (['r'], .error .valueError) :=
  readdata_malformed_line ['x'] ['r'] (by decide) (by decide)

/-- Claim C5: round trip through one channel of an initialized single-channel
component.  Writing the iterable `(1, 2.5, 3)` and reading the channel back
yields the tuple `(1.0, 2.5, 3.0)` (as the `tuple` result of floats, `5/2`
being `2.5` exactly); writing the scalar `7` and reading back yields the
float `7.0` — numbers always come back as floats. -/
theorem writedata_readdata_roundtrip :
    (Except.map (fun c => (Comp.readdata c 0).2)
        (Comp.writedata ((Comp.new 1 0).init) (.iter [.int 1, .float (mkRat 5 2), .int 3]) 0))
      = .ok (.ok (some (.tuple [1, mkRat 5 2, 3])))
    ∧ (Except.map (fun c => (Comp.readdata c 0).2)
        (Comp.writedata ((Comp.new 1 0).init) (.int 7) 0))
      = .ok (.ok (some (.float 7))) := by
  constructor <;> decide

/-- Counterexample to claim C2 as stated: `writedata` of the string scalar
`"ab"` does not write `encode("ab") ++ "\n"`; because Python strings are
iterable, the `hasattr(data, "__iter__")` branch fires and the characters are
comma-joined, producing `"a,b\n"`. -/
theorem writedata_string_scalar_cex :
    writedataBytes (.str ['a', 'b']) = ['a', ',', 'b', '\n']
    ∧ writedataBytes (.str ['a', 'b']) ≠ ['a', 'b', '\n'] := by
  constructor <;> decide

/-- Claim C2 as amended: an iterable argument is serialized as the
comma-joined text forms of its elements and a *number* scalar as its own text
form, each with exactly one trailing line feed; but a string, being iterable,
is serialized as its characters joined by commas (so only strings of length
at most one round-trip as their own text form). -/
theorem writedata_serialization :
    (∀ xs : List PyScalar,
      writedataBytes (.iter xs) = joinComma (xs.map pyStrScalar) ++ ['\n'])
    ∧ (∀ n : ℤ, writedataBytes (.int n) = (toString n).toList ++ ['\n'])
    ∧ (∀ q : ℚ, writedataBytes (.float q) = pyStrFloat q ++ ['\n'])
    ∧ (∀ s : List Char,
        writedataBytes (.str s) = joinComma (s.map (fun c => [c])) ++ ['\n'])
    ∧ (∀ (chs : List ℕ) (fs : List Pipe) (ini : Bool) (bufs : ℕ → List Char)
        (d : PyData) (ch : ℕ) (p : Pipe), fs.get? ch = some p → p.isOpen = true →
        Comp.writedata ⟨chs, some fs, ini, bufs⟩ d ch
          = .ok ⟨chs, some (fs.set ch { p with content := p.content ++ writedataBytes d }),
                 ini, bufs⟩) := by
  refine ⟨fun xs => rfl, fun n => rfl, fun q => rfl, fun s => ?_, ?_⟩
  · rw [writedataBytes, pyHasIter, pyElems]
    simp only [List.map_map]
    have hco : (pyStrScalar ∘ fun c => PyScalar.str [c]) = fun c : Char => [c] := rfl
    rw [hco]
    simp
  · intro chs fs ini bufs d ch p hg hp
    simp only [Comp.writedata, hg, hp]
    rfl

/-- Concrete run of claim C2 (amended): writing the scalar `7` to channel 0
of an open single-pipe component appends exactly `"7\n"` to that pipe. -/
theorem writedata_serialization_witness :
    Comp.writedata ⟨[0], some [Pipe.new], false, fun _ => []⟩ (.int 7) 0
      = .ok ⟨[0],
             some ([Pipe.new].set 0
               { Pipe.new with content := Pipe.new.content ++ writedataBytes (.int 7) }),
             false, fun _ => []⟩ :=
  writedata_serialization.2.2.2.2 [0] [Pipe.new] false (fun _ => []) (.int 7) 0 Pipe.new
    rfl rfl

/-- Counterexample to claim C3 as stated: a single-channel component named
`"x"` does not get the suffix-free path `<base>/x`; `FIFOFile`'s `num`
parameter defaults to `0` and `str(num)` is appended unconditionally, so the
path is `<base>/x0`. -/
theorem single_channel_path_cex :
    componentPaths "/var/run/".toList ['x'] 1 0 = ["/var/run/x0".toList]
    ∧ componentPaths "/var/run/".toList ['x'] 1 0 ≠ ["/var/run/".toList ++ ['x']] := by
  constructor <;> decide

/-- Claim C3 as amended: a component with fewer than two channels gets the
single path `<base>/<name>0` (the index suffix is `"0"`, not omitted —
regardless of the configured offset); with two or more channels, channel `i`
of `range(offset, numchannels + offset)` gets `<base>/<name><i>`. -/
theorem component_pipe_paths (base fn : List Char) (numchannels offset : ℕ) :
    componentPaths base fn numchannels offset
      = if numchannels < 2 then [base ++ fn ++ ['0']]
        else (List.range' offset numchannels).map
          (fun i => base ++ fn ++ (toString i).toList) := by
  rw [componentPaths]
  simp only [List.length_range']
  rfl

/-- Counterexample to claim C4 as stated: after base `Component.init()` on a
fresh single-channel component, every channel pipe is open yet the
initialized flag is still false (base `init` never calls `_set_init`), so the
claimed equivalence fails; moreover `writedata` on this not-initialized state
succeeds rather than signalling a usage fault — it performs no check. -/
theorem initialized_iff_open_cex :
    ¬((((Comp.new 1 0).init).initialized = true)
        ↔ (Comp.allOpen ((Comp.new 1 0).init) = true))
    ∧ (Comp.writedata ((Comp.new 1 0).init) (.int 5) 0).toOption.isSome = true := by
  constructor <;> decide

/-- Claim C4 as amended: base `init()` opens all channel pipes but leaves the
initialized flag false (only `_set_init`, called by subclasses, sets it);
`writedata` and `readdata` never consult the flag — their outcome is
independent of it — and they raise `AttributeError` (not the `_checkInit`
usage fault) exactly when `init` has never created `__fifos`; `_checkInit` in
loud mode raises `RuntimeError` iff the flag is clear, but neither protocol
operation invokes it. -/
theorem initialized_flag_behavior :
    (∀ numchannels offset : ℕ,
      ((Comp.new numchannels offset).init).initialized = false
      ∧ Comp.allOpen ((Comp.new numchannels offset).init) = true)
    ∧ (∀ (s : Comp) (d : PyData) (ch : ℕ) (b : Bool),
        Comp.writedata { s with initialized := b } d ch
          = Except.map (fun t => { t with initialized := b }) (Comp.writedata s d ch))
    ∧ (∀ (s : Comp) (ch : ℕ) (b : Bool),
        Comp.readdata { s with initialized := b } ch
          = ({ (Comp.readdata s ch).1 with initialized := b }, (Comp.readdata s ch).2))
    ∧ (∀ s : Comp, s.checkInit false
        = if s.initialized then .ok true else .error .runtimeError)
    ∧ (∀ (chs : List ℕ) (b : Bool) (bufs : ℕ → List Char) (d : PyData) (ch : ℕ),
        Comp.writedata ⟨chs, none, b, bufs⟩ d ch = .error .attributeError
        ∧ (Comp.readdata ⟨chs, none, b, bufs⟩ ch).2 = .error .attributeError) := by
  refine ⟨?_, ?_, ?_, ?_, ?_⟩
  · intro m off
    rw [Comp.new, Comp.init]
    constructor
    · split <;> rfl
    · split
      · rfl
      · simp [Comp.allOpen, Pipe.new, List.all_eq_true, List.mem_map]
  · intro s d ch b
    rcases s with ⟨chs, fifos, ini, bufs⟩
    cases fifos with
    | none => rfl
    | some fs =>
      simp only [Comp.writedata]
      cases hg : fs.get? ch with
      | none => rfl
      | some p =>
        by_cases hp : p.isOpen = true
        · simp [hp, Except.map]
        · simp [hp, Except.map]
  · intro s ch b
    rcases s with ⟨chs, fifos, ini, bufs⟩
    cases fifos with
    | none => rfl
    | some fs =>
      simp only [Comp.readdata]
      cases hg : fs.get? ch with
      | none => rfl
      | some p =>
        by_cases hp : p.isOpen = true
        · simp [hp]
        · simp [hp]
  · intro s
    rw [Comp.checkInit]
    simp
  · intro chs b bufs d ch
    exact ⟨rfl, rfl⟩

/-- Claim C6: `_handle_pin(pin)` invokes every generic handler and then every
handler registered for that pin, in registration order within each group with
the generic group first — the dispatch trace is exactly the map over the two
buckets' entries, so each registered handler is invoked exactly once — and
the set and order of invoked handler ids does not depend on which callbacks
raise: a raising handler is caught and never prevents delivery to the
others. -/
theorem handle_pin_dispatch (H : Type) :
    (∀ (run : H → ℕ → Except PyErr Unit) (st : EIState H) (pin : ℕ),
      handlePin run st pin
        = (st.bucket .generic ++ st.bucket (.pin pin)).map (fun e => (e.1, run e.2 pin)))
    ∧ (∀ (run run' : H → ℕ → Except PyErr Unit) (st : EIState H) (pin : ℕ),
        (handlePin run st pin).map Prod.fst = (handlePin run' st pin).map Prod.fst) := by
  have hmap : ∀ (run : H → ℕ → Except PyErr Unit) (st : EIState H) (pin : ℕ),
      handlePin run st pin
        = (st.bucket .generic ++ st.bucket (.pin pin)).map (fun e => (e.1, run e.2 pin)) :=
    fun run st pin => dispatch_eq_map run pin _
  refine ⟨hmap, ?_⟩
  intro run run' st pin
  rw [hmap run, hmap run', List.map_map, List.map_map]
  apply List.map_congr_left
  intro e he
  rfl

/-- Claim C7: over any call sequence on one registry, `add_handler` never
returns a previously issued id (the issued ids are pairwise distinct, even
across intervening removals and even counting `TypeError`-raising calls,
which burn an id without issuing it); on contract-respecting sequences the
issued ids are exactly `0, 1, 2, …` in order — the counter starts at `-1`
and is incremented before assignment, so the first issued id is `0`. -/
theorem handler_ids_fresh (H : Type) :
    (∀ ops : List (EIOp H), ((runOps (EIState.new H) ops).2).Nodup)
    ∧ (∀ ops : List (EIOp H), (∀ op ∈ ops, op.wellFormed = true) →
        (runOps (EIState.new H) ops).2
          = (List.range (countAdds ops)).map (fun i : ℕ => (i : ℤ)))
    ∧ (∀ ops : List (EIOp H), (∀ op ∈ ops, op.wellFormed = true) → 0 < countAdds ops →
        ((runOps (EIState.new H) ops).2).head? = some 0) := by
  have hwfeq : ∀ ops : List (EIOp H), (∀ op ∈ ops, op.wellFormed = true) →
      (runOps (EIState.new H) ops).2
        = (List.range (countAdds ops)).map (fun i : ℕ => (i : ℤ)) := by
    intro ops hwf
    rw [runOps_issued_wf ops hwf (EIState.new H)]
    apply List.map_congr_left
    intro i _
    show (-1 : ℤ) + 1 + (i : ℤ) = (i : ℤ)
    omega
  refine ⟨?_, hwfeq, ?_⟩
  · intro ops
    exact ((runOps_issued ops (EIState.new H)).2.2).imp (fun hab => ne_of_lt hab)
  · intro ops hwf hadds
    rw [hwfeq ops hwf]
    obtain ⟨m, hm⟩ : ∃ m, countAdds ops = m + 1 := ⟨countAdds ops - 1, by omega⟩
    rw [hm, List.range_succ_eq_map]
    simp

/-- Concrete run of claim C7: a generic registration, a removal and a
pin registration issue the ids `0` then `1` — distinct, starting at zero. -/
theorem handler_ids_fresh_witness :
    ((runOps (EIState.new Unit)
        [.add () none true, .remove 0 none true, .add () (some 3) false]).2).Nodup
    ∧ (runOps (EIState.new Unit)
        [.add () none true, .remove 0 none true, .add () (some 3) false]).2 = [0, 1]
    ∧ ((runOps (EIState.new Unit)
        [.add () none true, .remove 0 none true, .add () (some 3) false]).2).head? = some 0 := by
  refine ⟨(handler_ids_fresh Unit).1 _, ?_,
    (handler_ids_fresh Unit).2.2 _ (by decide) (by decide)⟩
  rw [(handler_ids_fresh Unit).2.1 _ (by decide)]
  decide

/-- Claim C8: the `LoopedComponent` state machine — `start()` raises the
`RuntimeError` usage fault when the component is not initialized and
otherwise only sets the started flag; `stop()` clears it unconditionally;
`cleanup()` calls `stop()` first exactly when currently running and always
leaves the flag cleared; and a loop iteration invokes `tick()` only while
started is set, so after `stop()` any number of further iterations performs
zero `tick` invocations. -/
theorem looped_state_machine :
    (∀ s : LoopedComp, s.comp.initialized = false → s.start = .error .runtimeError)
    ∧ (∀ s : LoopedComp, s.comp.initialized = true → s.start = .ok { s with started := true })
    ∧ (∀ s : LoopedComp, s.stop = { s with started := false })
    ∧ (∀ s : LoopedComp, (s.cleanup).1 = s.started)
    ∧ (∀ s s' : LoopedComp, (s.cleanup).2 = .ok s' → s'.started = false)
    ∧ (∀ (s : LoopedComp) (n : ℕ), (s.stop).loopTicks n = 0) := by
  refine ⟨?_, ?_, ?_, ?_, ?_, ?_⟩
  · intro s h
    rw [LoopedComp.start, Comp.checkInit]
    simp [h]
  · intro s h
    rw [LoopedComp.start, Comp.checkInit]
    simp [h]
  · intro s
    rfl
  · intro s
    rfl
  · intro s s' h
    simp only [LoopedComp.cleanup] at h
    cases hc : (if s.started then s.stop else s).comp.cleanup with
    | error e =>
      rw [hc] at h
      simp [Except.map] at h
    | ok c =>
      rw [hc] at h
      simp only [Except.map, Except.ok.injEq] at h
      have hs1 : (if s.started then s.stop else s).started = false := by
        by_cases hb : s.started <;> simp [hb, LoopedComp.stop]
      rw [← h]
      exact hs1
  · intro s n
    induction n with
    | zero => rfl
    | succ m ih =>
      show (if (s.stop).started then 1 else 0) + (s.stop).loopTicks m = 0
      rw [ih]
      rfl

/-- Concrete runs of claim C8: `start` before `init` raises `RuntimeError`;
`start` after `init(); _set_init()` succeeds setting the flag; cleanup of a
running instance reports having called `stop` and clears the flag; three loop
iterations after `stop` deliver no tick. -/
theorem looped_state_machine_witness :
    LoopedComp.start (LoopedComp.new 1 0) = .error .runtimeError
    ∧ LoopedComp.start ⟨(Comp.new 1 0).init.setInit, false⟩
        = .ok { (⟨(Comp.new 1 0).init.setInit, false⟩ : LoopedComp) with started := true }
    ∧ ((⟨(Comp.new 1 0).init.setInit, true⟩ : LoopedComp).cleanup).1 = true
    ∧ (⟨⟨List.range' 0 1, some [⟨false, []⟩], false, fun _ => []⟩, false⟩ : LoopedComp).started
        = false
    ∧ (LoopedComp.stop ⟨Comp.new 1 0, true⟩).loopTicks 3 = 0 := by
  refine ⟨looped_state_machine.1 _ (by decide), looped_state_machine.2.1 _ (by decide),
    ?_, ?_, looped_state_machine.2.2.2.2.2 _ 3⟩
  · rw [looped_state_machine.2.2.2.1 _]
  · exact looped_state_machine.2.2.2.2.1 (⟨(Comp.new 1 0).init.setInit, true⟩ : LoopedComp)
      _ rfl

/-- Pointwise behaviour of the tolerated unlink: the path's node is removed
whether or not it existed (the `FileNotFoundError` is swallowed), every other
path is untouched. -/
theorem unlinkTolerant_apply (fs : FS) (p q : List Char) :
    unlinkTolerant fs p q = if q = p then none else fs q := by
  rw [unlinkTolerant, osUnlink]
  cases h : fs p with
  | none =>
    by_cases hq : q = p
    · rw [if_pos hq, hq]
      exact h
    · rw [if_neg hq]
  | some v => rfl

/-- Claim C9: pipe node management is idempotent with respect to a missing
file — `FIFOFile.__init__` removes any stale node at the path (tolerating its
absence) before creating the pipe, and always succeeds in placing exactly a
fresh fifo node there; `close` closes the handle and removes the node,
touching nothing else and succeeding equally when the node is already gone; a
not-found removal is a no-op, and the removal is idempotent. -/
theorem fifo_node_management :
    (∀ (fs : FS) (p : List Char),
      fifoInit fs p
        = .ok { fs := fun q => if q = p then some .fifo else fs q, fdOpen := true })
    ∧ (∀ (st : FIFOSt) (p : List Char),
        (fifoClose st p).fdOpen = false
        ∧ (fifoClose st p).fs p = none
        ∧ ∀ q : List Char, q ≠ p → (fifoClose st p).fs q = st.fs q)
    ∧ (∀ (fs : FS) (p : List Char), fs p = none → unlinkTolerant fs p = fs)
    ∧ (∀ (fs : FS) (p : List Char),
        unlinkTolerant (unlinkTolerant fs p) p = unlinkTolerant fs p) := by
  refine ⟨?_, ?_, ?_, ?_⟩
  · intro fs p
    have hnone : (unlinkTolerant fs p) p = none := by
      rw [unlinkTolerant_apply]
      simp
    have hfun : (fun q => if q = p then some FSNode.fifo else unlinkTolerant fs p q)
        = (fun q => if q = p then some FSNode.fifo else fs q) := by
      funext q
      by_cases hq : q = p
      · simp [hq]
      · simp [hq, unlinkTolerant_apply]
    rw [fifoInit, osMkfifo]
    simp only [hnone, Except.map, hfun]
  · intro st p
    refine ⟨rfl, ?_, ?_⟩
    · show unlinkTolerant st.fs p p = none
      rw [unlinkTolerant_apply]
      simp
    · intro q hq
      show unlinkTolerant st.fs p q = st.fs q
      rw [unlinkTolerant_apply, if_neg hq]
  · intro fs p h
    funext q
    rw [unlinkTolerant_apply]
    by_cases hq : q = p
    · rw [if_pos hq, hq, h]
    · rw [if_neg hq]
  · intro fs p
    funext q
    simp only [unlinkTolerant_apply]
    by_cases hq : q = p <;> simp [hq]

/-- Concrete run of claim C9: on the empty filesystem, closing a pipe whose
node is already gone is a no-op on other paths, and the tolerated unlink of a
missing path leaves the filesystem untouched. -/
theorem fifo_node_management_witness :
    ((fifoClose (FIFOSt.mk (fun _ => none) true) ['a']).fs ['b']
      = (fun _ => (none : Option FSNode)) ['b'])
    ∧ unlinkTolerant (fun _ => none) ['a'] = (fun _ => none) := by
  exact ⟨(fifo_node_management.2.1 (FIFOSt.mk (fun _ => none) true) ['a']).2.2 ['b'] (by decide),
    fifo_node_management.2.2.1 (fun _ => none) ['a'] rfl⟩
